import Mathlib

/-!
Shallow embedding of the finality-provider agent core: EOTS nonce store and
signing, public-randomness commit pipeline with Merkle commitments, vote
pipeline preconditions and state update, finality-provider store, and the
start-height resolver.  The repository ships only the fuzz tests and the
e2e node harness for these components, so each definition is modelled from
the specification's wording for the component, and checked against the
observable behaviour the tests pin down.
-/

namespace FinalityProvider

/-! ## Data model -/

/-- A block header as delivered by the chain client: height and 32-byte hash
(the hash is embedded as a natural number). -/
structure BlockInfo where
  height : Nat
  hash : Nat
deriving DecidableEq

/-! ## Start-height resolver (component G)

Modelled from the spec: the resolver implementation (`DetermineStartHeight`
on the finality-provider instance) is not among the repository's files; only
its fuzz test `FuzzDetermineStartHeight` is.  The spec gives
`start = max(finality_activation_height, highest_voted_height_on_chain + 1,
last_finalized_height + 1, last_voted_height_local + 1)`, and the fuzz test
asserts exactly that maximum. -/

/-- The four chain / local quantities the resolver queries on startup. -/
structure StartHeightEnv where
  finalityActivationHeight : Nat
  highestVotedHeight : Nat
  lastFinalizedHeight : Nat
  lastVotedHeight : Nat
deriving DecidableEq

/-- Modelled from the spec: `DetermineStartHeight`, the start-height
resolver, absent from the repository's files.  It folds the maximum in the
order the queries are made. -/
def determineStartHeight (env : StartHeightEnv) : Nat :=
  Nat.max
    (Nat.max
      (Nat.max (env.lastVotedHeight + 1) (env.highestVotedHeight + 1))
      (env.lastFinalizedHeight + 1))
    env.finalityActivationHeight

/-- C2: the start-height resolver returns exactly the maximum of the
activation height and the three successor heights, and on the seed scenario
(activation 100, highest voted 150, last finalized 140, local last voted
120) it returns 151. -/
theorem determineStartHeight_is_max :
    (∀ env : StartHeightEnv,
      determineStartHeight env =
        Nat.max env.finalityActivationHeight
          (Nat.max (env.highestVotedHeight + 1)
            (Nat.max (env.lastFinalizedHeight + 1) (env.lastVotedHeight + 1)))) ∧
    determineStartHeight ⟨100, 150, 140, 120⟩ = 151 := by
  constructor
  · intro env
    simp only [determineStartHeight]
    ac_rfl
  · rfl

/-! ## Nonce store and EOTS manager (components A and B)

Modelled from the spec: the nonce store and the local EOTS manager
(`NewLocalEOTSManager`, `CreateKey`, signing) are not among the
repository's files; only their callers in the fuzz tests are.  The store
maps `(btc_pk, chain_id, height)` to a secret nonce plus a consumed flag
with a message-digest witness; `mark_consumed` is a compare-and-set that
fails with `EquivocationAttempt` on a different digest; `sign_eots` loads
the nonce, computes `s = k + e·x mod n` with `e = H(R || pk || msg)`, and
marks the nonce consumed before returning. -/

/-- The key of a nonce entry: the triple `(btc_pk, chain_id, height)`. -/
structure NonceKey where
  btcPk : Nat
  chainId : Nat
  height : Nat
deriving DecidableEq

/-- A stored nonce: the secret scalar and, once the nonce has been used,
the digest of the message it signed. -/
structure NonceEntry where
  secret : Nat
  consumed : Option Nat
deriving DecidableEq

/-- The persistent nonce store, an association list over `NonceKey`. -/
abbrev NonceStore := List (NonceKey × NonceEntry)

/-- The error taxonomy of the nonce store and EOTS manager. -/
inductive EotsError where
  | notFound
  | alreadyExists
  | equivocationAttempt
deriving DecidableEq

/-- Look a key up in the nonce store (first binding wins). -/
def lookupNonce : NonceStore → NonceKey → Option NonceEntry
  | [], _ => none
  | (k, e) :: rest, key => if k = key then some e else lookupNonce rest key

/-- Record the digest a nonce was consumed for (first binding updated). -/
def setConsumed : NonceStore → NonceKey → Nat → NonceStore
  | [], _, _ => []
  | (k, e) :: rest, key, d =>
    if k = key then (k, { e with consumed := some d }) :: rest
    else (k, e) :: setConsumed rest key d

/-- Atomic compare-and-set on the consumed flag: marking an unconsumed
nonce stores the digest, re-marking with the same digest is a no-op, and a
different digest is refused with `EquivocationAttempt`. -/
def markConsumed (st : NonceStore) (key : NonceKey) (digest : Nat) :
    Except EotsError NonceStore :=
  match lookupNonce st key with
  | none => .error .notFound
  | some e =>
    match e.consumed with
    | none => .ok (setConsumed st key digest)
    | some d => if d = digest then .ok st else .error .equivocationAttempt

/-- The cryptographic parameters of the EOTS manager: the group order `n`,
the provider's secret key `x`, the point derivation `k ↦ R`, the challenge
hash `H(R || pk || msg)`, and the nonce key-derivation function of
`(master secret, chain_id, height)`. -/
structure EotsParams where
  grpOrder : Nat
  secKey : Nat
  pubOf : Nat → Nat
  hashE : Nat → Nat → Nat → Nat
  kdf : Nat → Nat → Nat → Nat

/-- An EOTS signature: the pre-committed point `R` and the scalar `s`. -/
structure EotsSig where
  bigR : Nat
  s : Nat
deriving DecidableEq

/-- The Schnorr-EOTS signing equation: `s = k + e·x mod n` with
`e = H(R || pk || msg)`. -/
def mkEotsSig (p : EotsParams) (pk : Nat) (k : Nat) (digest : Nat) : EotsSig :=
  { bigR := p.pubOf k
    s := (k + p.hashE (p.pubOf k) pk digest * p.secKey) % p.grpOrder }

/-- Modelled from the spec: `sign_eots`, absent from the repository's
files.  Loads the nonce from the store, marks it consumed before
returning, and emits no signature when mark-consumed fails. -/
def signEots (p : EotsParams) (st : NonceStore) (key : NonceKey) (digest : Nat) :
    Except EotsError (EotsSig × NonceStore) :=
  match lookupNonce st key with
  | none => .error .notFound
  | some e =>
    match markConsumed st key digest with
    | .error err => .error err
    | .ok st' => .ok (mkEotsSig p key.btcPk e.secret digest, st')

/-- Run a list of signing requests against the store, threading the store
through and logging each request's outcome (a failed request leaves the
store untouched). -/
def runSignRequests (p : EotsParams) (st : NonceStore) :
    List (NonceKey × Nat) → NonceStore × List (NonceKey × Nat × Option EotsSig)
  | [] => (st, [])
  | (key, d) :: rest =>
    match signEots p st key d with
    | .ok (sig, st') =>
      let out := runSignRequests p st' rest
      (out.1, (key, d, some sig) :: out.2)
    | .error _ =>
      let out := runSignRequests p st rest
      (out.1, (key, d, none) :: out.2)

/-- A store state in which `key` holds secret `sec`, already consumed for
digest `d`. -/
def lockedAt (st : NonceStore) (key : NonceKey) (d sec : Nat) : Prop :=
  lookupNonce st key = some ⟨sec, some d⟩

theorem lookup_setConsumed_self {st : NonceStore} {key : NonceKey} {e : NonceEntry}
    (h : lookupNonce st key = some e) (d : Nat) :
    lookupNonce (setConsumed st key d) key = some { e with consumed := some d } := by
  induction st with
  | nil => simp [lookupNonce] at h
  | cons hd tl ih =>
    obtain ⟨k, e'⟩ := hd
    by_cases hk : k = key
    · subst hk
      simp [lookupNonce] at h
      simp [setConsumed, lookupNonce, h]
    · simp [lookupNonce, hk] at h
      simp [setConsumed, lookupNonce, hk, ih h]

theorem lookup_setConsumed_ne {st : NonceStore} {key key' : NonceKey}
    (hne : key' ≠ key) (d : Nat) :
    lookupNonce (setConsumed st key d) key' = lookupNonce st key' := by
  induction st with
  | nil => simp [setConsumed]
  | cons hd tl ih =>
    obtain ⟨k, e'⟩ := hd
    by_cases hk : k = key
    · subst hk
      have : k ≠ key' := fun h => hne h.symm
      simp [setConsumed, lookupNonce, this]
    · simp [setConsumed, lookupNonce, hk]
      by_cases hk' : k = key'
      · simp [hk']
      · simp [hk', ih]

/-- A locked key stays locked across any `signEots` call that succeeds. -/
theorem lockedAt_signEots {p : EotsParams} {st st' : NonceStore}
    {key key' : NonceKey} {d d' sec : Nat} {sig : EotsSig}
    (hlock : lockedAt st key d sec)
    (h : signEots p st key' d' = .ok (sig, st')) :
    lockedAt st' key d sec := by
  unfold signEots markConsumed at h
  cases hl : lookupNonce st key' with
  | none =>
    simp only [hl] at h
    exact Except.noConfusion h
  | some e =>
    simp only [hl] at h
    cases hc : e.consumed with
    | none =>
      simp only [hc, Except.ok.injEq, Prod.mk.injEq] at h
      obtain ⟨-, hst⟩ := h
      by_cases hk : key' = key
      · subst hk
        rw [lockedAt] at hlock
        rw [hlock] at hl
        cases hl
        simp at hc
      · rw [lockedAt, ← hst, lookup_setConsumed_ne (fun hx => hk hx.symm) d']
        exact hlock
    | some d0 =>
      simp only [hc] at h
      by_cases hd0 : d0 = d'
      · rw [if_pos hd0] at h
        simp only [Except.ok.injEq, Prod.mk.injEq] at h
        obtain ⟨-, hst⟩ := h
        subst hst
        exact hlock
      · rw [if_neg hd0] at h
        simp at h

/-- A locked key stays locked across any run of signing requests. -/
theorem lockedAt_runSignRequests {p : EotsParams} {st : NonceStore}
    {key : NonceKey} {d sec : Nat} (hlock : lockedAt st key d sec) :
    ∀ reqs : List (NonceKey × Nat),
      lockedAt (runSignRequests p st reqs).1 key d sec := by
  intro reqs
  induction reqs generalizing st with
  | nil => exact hlock
  | cons req rest ih =>
    obtain ⟨key', d'⟩ := req
    unfold runSignRequests
    cases hs : signEots p st key' d' with
    | ok out =>
      obtain ⟨sig, st'⟩ := out
      exact ih (lockedAt_signEots hlock hs)
    | error err => exact ih hlock

/-- A successful `signEots` leaves the key locked on the digest it signed,
and the signature it emits is the signing equation applied to the stored
secret and that digest. -/
theorem signEots_ok_locked {p : EotsParams} {st st₁ : NonceStore}
    {key : NonceKey} {d : Nat} {sig : EotsSig}
    (h : signEots p st key d = .ok (sig, st₁)) :
    ∃ sec, sig = mkEotsSig p key.btcPk sec d ∧ lockedAt st₁ key d sec := by
  unfold signEots markConsumed at h
  cases hl : lookupNonce st key with
  | none =>
    simp only [hl] at h
    exact Except.noConfusion h
  | some e =>
    simp only [hl] at h
    cases hc : e.consumed with
    | none =>
      simp only [hc, Except.ok.injEq, Prod.mk.injEq] at h
      obtain ⟨hsig, hst⟩ := h
      refine ⟨e.secret, hsig.symm, ?_⟩
      rw [lockedAt, ← hst, lookup_setConsumed_self hl d]
    | some d0 =>
      simp only [hc] at h
      by_cases hd0 : d0 = d
      · rw [if_pos hd0] at h
        simp only [Except.ok.injEq, Prod.mk.injEq] at h
        obtain ⟨hsig, hst⟩ := h
        refine ⟨e.secret, hsig.symm, ?_⟩
        subst hst hd0
        rw [lockedAt, hl]
        cases e
        simp at hc
        simp [hc]
      · rw [if_neg hd0] at h
        simp at h

/-- Signing a different digest at a locked key is refused with
`EquivocationAttempt`. -/
theorem signEots_locked_ne {p : EotsParams} {st : NonceStore}
    {key : NonceKey} {d d' sec : Nat}
    (hlock : lockedAt st key d sec) (hne : d' ≠ d) :
    signEots p st key d' = .error .equivocationAttempt := by
  rw [lockedAt] at hlock
  unfold signEots markConsumed
  simp only [hlock]
  rw [if_neg (fun hx => hne hx.symm)]

/-- A successful sign at a locked key can only repeat the locked digest and
reproduces the same signature. -/
theorem signEots_locked_ok {p : EotsParams} {st st₂ : NonceStore}
    {key : NonceKey} {d d' sec : Nat} {sig' : EotsSig}
    (hlock : lockedAt st key d sec)
    (h : signEots p st key d' = .ok (sig', st₂)) :
    sig' = mkEotsSig p key.btcPk sec d := by
  rw [lockedAt] at hlock
  unfold signEots markConsumed at h
  simp only [hlock] at h
  by_cases hd : d = d'
  · rw [if_pos hd] at h
    simp only [Except.ok.injEq, Prod.mk.injEq] at h
    rw [← h.1, hd]
  · rw [if_neg hd] at h
    exact Except.noConfusion h

/-- C1: once `sign_eots` has succeeded for a triple with some digest, then
after any further sequence of signing requests, a call at the same triple
with a different digest returns `EquivocationAttempt` (emitting no
signature), and any successful call at the triple emits the same signature
as the first — so at most one signature is ever emitted per triple. -/
theorem signEots_single_use (p : EotsParams) (st : NonceStore) (key : NonceKey)
    (d : Nat) (sig : EotsSig) (st₁ : NonceStore)
    (h : signEots p st key d = .ok (sig, st₁))
    (reqs : List (NonceKey × Nat)) :
    (∀ d', d' ≠ d →
      signEots p (runSignRequests p st₁ reqs).1 key d' =
        .error .equivocationAttempt) ∧
    (∀ d' sig' st₂,
      signEots p (runSignRequests p st₁ reqs).1 key d' = .ok (sig', st₂) →
        sig' = sig) := by
  obtain ⟨sec, hsig, hlock⟩ := signEots_ok_locked h
  have hlock2 := lockedAt_runSignRequests (p := p) hlock reqs
  refine ⟨fun d' hne => signEots_locked_ne hlock2 hne, ?_⟩
  intro d' sig' st₂ h2
  rw [signEots_locked_ok hlock2 h2, hsig]

/-- Concrete EOTS parameters for the witness. -/
def sampleParams : EotsParams :=
  ⟨97, 5, fun k => k + 1, fun r pk m => r + pk + m, fun ms c hgt => ms + c + hgt⟩

/-- Concrete nonce key for the witness. -/
def sampleKey : NonceKey := ⟨1, 2, 10⟩

/-- Concrete nonce store for the witness. -/
def sampleStore : NonceStore := [(sampleKey, ⟨7, none⟩)]

/-- Witness for C1: after signing digest 3 at the sample key and re-running
a request for the same digest, signing digest 4 there is refused with
`EquivocationAttempt`. -/
theorem signEots_single_use_witness :
    signEots sampleParams
      (runSignRequests sampleParams [(sampleKey, ⟨7, some 3⟩)] [(sampleKey, 3)]).1
      sampleKey 4 = .error .equivocationAttempt :=
  (signEots_single_use sampleParams sampleStore sampleKey 3 ⟨8, 67⟩
    [(sampleKey, ⟨7, some 3⟩)] (by rfl) [(sampleKey, 3)]).1 4 (by decide)

/-! ## Deterministic randomness derivation

Modelled from the spec: `derive_pub_rand_list` of the EOTS manager is not
among the repository's files.  It is a deterministic function of
`(master secret, chain_id, height)`, reproducible across restarts. -/

/-- The EOTS manager's in-process state: the master secret survives a
restart, the session cache does not. -/
structure EotsManagerState where
  masterSecret : Nat
  sessionCache : List Nat
deriving DecidableEq

/-- Restarting the agent reloads the master secret and clears everything
ephemeral. -/
def restartAgent (st : EotsManagerState) : EotsManagerState :=
  { masterSecret := st.masterSecret, sessionCache := [] }

/-- The secret nonces for heights `start, …, start + num - 1`, each derived
from `(master secret, chain_id, height)` alone. -/
def deriveSecretList (p : EotsParams) (master chainId start num : Nat) : List Nat :=
  (List.range' start num).map fun h => p.kdf master chainId h

/-- The public forms of the derived secret nonces. -/
def derivePubList (p : EotsParams) (master chainId start num : Nat) : List Nat :=
  (deriveSecretList p master chainId start num).map p.pubOf

/-- Modelled from the spec: `derive_pub_rand_list`, absent from the
repository's files — the secret-nonce and public-nonce lists an EOTS
manager in state `st` derives for a commit batch. -/
def derivePubRandList (p : EotsParams) (st : EotsManagerState)
    (chainId start num : Nat) : List Nat × List Nat :=
  (deriveSecretList p st.masterSecret chainId start num,
   derivePubList p st.masterSecret chainId start num)

/-- C8: `derive_pub_rand_list` is deterministic — two manager states with
the same master secret (in particular a state and its restart) derive
identical secret-nonce and public-nonce lists. -/
theorem derivePubRandList_deterministic (p : EotsParams)
    (st st' : EotsManagerState) (chainId start num : Nat)
    (hmaster : st'.masterSecret = st.masterSecret) :
    derivePubRandList p st' chainId start num =
      derivePubRandList p st chainId start num ∧
    derivePubRandList p (restartAgent st) chainId start num =
      derivePubRandList p st chainId start num := by
  constructor
  · rw [derivePubRandList, derivePubRandList, hmaster]
  · rw [derivePubRandList, derivePubRandList, restartAgent]

/-- Witness for C8: a state with a populated session cache and its restart
derive the same lists. -/
theorem derivePubRandList_deterministic_witness :
    derivePubRandList sampleParams ⟨11, [5, 6]⟩ 2 100 3 =
      derivePubRandList sampleParams ⟨11, [9]⟩ 2 100 3 :=
  (derivePubRandList_deterministic sampleParams ⟨11, [9]⟩ ⟨11, [5, 6]⟩ 2 100 3 rfl).1

/-! ## Merkle commitment (component E's step 5)

Modelled from the spec: the Merkle tree over the public nonces — leaf hash
`H(pub)`, internal hash `H(left || right)`, duplicate-last on odd levels —
is not among the repository's files.  Hash values are embedded as the free
algebra generated by the two hashing forms, so distinct hashing histories
stay distinct. -/

/-- A hash value: `lf d` is the leaf hash `H(d)` of a public nonce, and
`nd l r` the internal hash `H(left || right)`. -/
inductive MTHash where
  | lf (data : Nat) : MTHash
  | nd (l r : MTHash) : MTHash
deriving DecidableEq

/-- One level of tree construction: adjacent nodes are paired, and an odd
level duplicates its last node. -/
def hashLevel : List MTHash → List MTHash
  | [] => []
  | [x] => [.nd x x]
  | x :: y :: rest => .nd x y :: hashLevel rest

theorem hashLevel_length : ∀ l : List MTHash, (hashLevel l).length = (l.length + 1) / 2
  | [] => by simp [hashLevel]
  | [_] => by simp [hashLevel]
  | x :: y :: rest => by
    simp only [hashLevel, List.length_cons, hashLevel_length rest]
    omega

/-- The Merkle root of a level: hash levels until one node remains. -/
def rootOfLevel : List MTHash → MTHash
  | [] => .lf 0
  | [x] => x
  | x :: y :: rest => rootOfLevel (hashLevel (x :: y :: rest))
termination_by l => l.length
decreasing_by
  simp only [hashLevel_length, List.length_cons]
  omega

/-- The sibling of index `i` within one level: the right neighbour for an
even index (the node itself when it is an unpaired last node), the left
neighbour for an odd index. -/
def siblingAt (l : List MTHash) (i : Nat) : MTHash :=
  if i % 2 = 0 then
    if i + 1 < l.length then l.getD (i + 1) (.lf 0) else l.getD i (.lf 0)
  else l.getD (i - 1) (.lf 0)

/-- The inclusion proof for leaf `i`: one (is-left-child, sibling) step per
level, bottom up. -/
def proofAt : List MTHash → Nat → List (Bool × MTHash)
  | [], _ => []
  | [_], _ => []
  | x :: y :: rest, i =>
    (decide (i % 2 = 0), siblingAt (x :: y :: rest) i) ::
      proofAt (hashLevel (x :: y :: rest)) (i / 2)
termination_by l _ => l.length
decreasing_by
  simp only [hashLevel_length, List.length_cons]
  omega

/-- One verifier step: rebuild the parent from the current hash and the
recorded sibling. -/
def verifyStep (h : MTHash) : Bool × MTHash → MTHash
  | (true, sib) => .nd h sib
  | (false, sib) => .nd sib h

/-- The on-chain verifier's recomputation: fold the proof steps over the
leaf hash and compare the result with the committed root. -/
def verifyPath : MTHash → List (Bool × MTHash) → MTHash
  | h, [] => h
  | h, step :: rest => verifyPath (verifyStep h step) rest

/-- The parent of index `i` on the next level combines the node at `i` with
its sibling, in the order given by the parity of `i`. -/
theorem hashLevel_getD : ∀ (l : List MTHash) (i : Nat), i < l.length →
    (hashLevel l).getD (i / 2) (.lf 0) =
      if i % 2 = 0 then .nd (l.getD i (.lf 0)) (siblingAt l i)
      else .nd (siblingAt l i) (l.getD i (.lf 0))
  | [], i, h => absurd h (by simp)
  | [x], i, h => by
    have hi : i = 0 := by simpa using Nat.lt_one_iff.mp (by simpa using h)
    subst hi
    simp [hashLevel, siblingAt]
  | x :: y :: rest, i, h => by
    match i with
    | 0 => simp [hashLevel, siblingAt]
    | 1 => simp [hashLevel, siblingAt]
    | (j + 2) =>
      have hj : j < rest.length := by simpa using h
      have ih := hashLevel_getD rest j hj
      have hdiv : (j + 2) / 2 = j / 2 + 1 := by omega
      have hmod : (j + 2) % 2 = j % 2 := by omega
      simp only [hashLevel, hdiv, List.getD_cons_succ, hmod]
      rw [ih]
      have hsib : siblingAt (x :: y :: rest) (j + 2) = siblingAt rest j := by
        simp only [siblingAt, hmod, List.length_cons]
        by_cases hpar : j % 2 = 0
        · rw [if_pos hpar, if_pos hpar]
          by_cases hlt : j + 1 < rest.length
          · rw [if_pos (by omega), if_pos hlt]
            simp
          · rw [if_neg (by omega), if_neg hlt]
            simp
        · rw [if_neg hpar, if_neg hpar]
          have h1 : j + 2 - 1 = (j - 1) + 2 := by omega
          rw [h1]
          simp
      rw [hsib]
termination_by l _ _ => l.length

/-- Correctness of the inclusion proofs: for every index of the level, the
verifier's recomputation from the node and its proof yields the level's
root. -/
theorem verifyPath_proofAt : ∀ (l : List MTHash) (i : Nat), i < l.length →
    verifyPath (l.getD i (.lf 0)) (proofAt l i) = rootOfLevel l
  | [], i, h => absurd h (by simp)
  | [x], i, h => by
    have hi : i = 0 := by simpa using Nat.lt_one_iff.mp (by simpa using h)
    subst hi
    simp [proofAt, verifyPath, rootOfLevel]
  | x :: y :: rest, i, h => by
    have hlen : i / 2 < (hashLevel (x :: y :: rest)).length := by
      rw [hashLevel_length]
      simp only [List.length_cons] at h ⊢
      omega
    have ih := verifyPath_proofAt (hashLevel (x :: y :: rest)) (i / 2) hlen
    rw [proofAt, verifyPath]
    have hstep :
        verifyStep ((x :: y :: rest).getD i (.lf 0))
            (decide (i % 2 = 0), siblingAt (x :: y :: rest) i) =
          (hashLevel (x :: y :: rest)).getD (i / 2) (.lf 0) := by
      rw [hashLevel_getD (x :: y :: rest) i h]
      by_cases hpar : i % 2 = 0
      · simp [hpar, verifyStep]
      · simp [hpar, verifyStep]
    rw [hstep, ih]
    conv_rhs => rw [rootOfLevel]
termination_by l _ _ => l.length
decreasing_by
  simp only [hashLevel_length, List.length_cons]
  omega

/-! ## Commit pipeline (component E)

Modelled from the spec: `CommitPubRand` and its helpers on the
finality-provider instance are not among the repository's files; only the
fuzz test `FuzzCommitPubRandList` and the benchmark harness are.  The
pipeline reads the latest on-chain commit, is a no-op while enough runway
remains, and otherwise commits a batch of `N` public nonces starting at the
end of the previous commit. -/

/-- A public-randomness commitment: the Merkle root over `numPubRand`
public nonces for heights from `startHeight`. -/
structure PubRandCommit where
  startHeight : Nat
  numPubRand : Nat
  commitment : MTHash
deriving DecidableEq

/-- The commit pipeline's configuration constants: batch size `N`,
timestamping delay `T`, the minimum runway before exhaustion, and the
chain's finality activation height. -/
structure CommitCfg where
  numPubRand : Nat
  timestampingDelay : Nat
  minRandomnessBeforeExhaustion : Nat
  activationHeight : Nat
deriving DecidableEq

/-- The first height not covered by the latest on-chain commit — the
activation height when there is none. -/
def lastCommitEnd (cfg : CommitCfg) : Option PubRandCommit → Nat
  | none => cfg.activationHeight
  | some c => c.startHeight + c.numPubRand

/-- The runway test of the pipeline: `none` (no-op) while
`tip + T + min_randomness_before_exhaustion < last_end`, otherwise the next
batch's start height, `last_end`. -/
def shouldCommitPubRand (cfg : CommitCfg) (lastCommit : Option PubRandCommit)
    (tip : Nat) : Option Nat :=
  if tip + cfg.timestampingDelay + cfg.minRandomnessBeforeExhaustion <
      lastCommitEnd cfg lastCommit then none
  else some (lastCommitEnd cfg lastCommit)

/-- The leaf hash of a public nonce. -/
def leafHash (pub : Nat) : MTHash := .lf pub

/-- The Merkle root over a batch of public nonces. -/
def commitRoot (publics : List Nat) : MTHash :=
  rootOfLevel (publics.map leafHash)

/-- One run of the commit pipeline at tip height `tip`: the new latest
commit the chain holds and the commit submitted by this run, if any. -/
def commitPubRandStep (cfg : CommitCfg) (p : EotsParams) (master chainId : Nat)
    (lastCommit : Option PubRandCommit) (tip : Nat) :
    Option PubRandCommit × Option PubRandCommit :=
  match shouldCommitPubRand cfg lastCommit tip with
  | none => (lastCommit, none)
  | some nextStart =>
    let c : PubRandCommit :=
      ⟨nextStart, cfg.numPubRand,
        commitRoot (derivePubList p master chainId nextStart cfg.numPubRand)⟩
    (some c, some c)

/-- Run the commit pipeline for a sequence of observed tip heights,
collecting the submitted commits in order. -/
def commitTrace (cfg : CommitCfg) (p : EotsParams) (master chainId : Nat) :
    Option PubRandCommit → List Nat → Option PubRandCommit × List PubRandCommit
  | lastCommit, [] => (lastCommit, [])
  | lastCommit, tip :: rest =>
    match commitPubRandStep cfg p master chainId lastCommit tip with
    | (st', none) => commitTrace cfg p master chainId st' rest
    | (st', some c) =>
      let out := commitTrace cfg p master chainId st' rest
      (out.1, c :: out.2)

/-- A commit list continues contiguously from the given latest commit:
every commit starts at its predecessor's end. -/
def chainedExt : Option PubRandCommit → List PubRandCommit → Prop
  | _, [] => True
  | none, c :: rest => chainedExt (some c) rest
  | some c0, c :: rest =>
    c.startHeight = c0.startHeight + c0.numPubRand ∧ chainedExt (some c) rest

theorem commitTrace_chainedExt (cfg : CommitCfg) (p : EotsParams)
    (master chainId : Nat) :
    ∀ (tips : List Nat) (lastCommit : Option PubRandCommit),
      chainedExt lastCommit (commitTrace cfg p master chainId lastCommit tips).2 := by
  intro tips
  induction tips with
  | nil =>
    intro lastCommit
    rw [commitTrace]
    cases lastCommit <;> simp [chainedExt]
  | cons tip rest ih =>
    intro lastCommit
    rw [commitTrace, commitPubRandStep]
    cases hs : shouldCommitPubRand cfg lastCommit tip with
    | none => exact ih lastCommit
    | some nextStart =>
      have hstart : nextStart = lastCommitEnd cfg lastCommit := by
        unfold shouldCommitPubRand at hs
        by_cases hrun :
            tip + cfg.timestampingDelay + cfg.minRandomnessBeforeExhaustion <
              lastCommitEnd cfg lastCommit
        · rw [if_pos hrun] at hs
          exact Option.noConfusion hs
        · rw [if_neg hrun] at hs
          exact (Option.some.inj hs).symm
      cases lastCommit with
      | none => exact ih _
      | some c0 =>
        exact ⟨by rw [hstart]; rfl, ih _⟩

theorem chainedExt_chain' : ∀ (l : List PubRandCommit)
    (st : Option PubRandCommit), chainedExt st l →
    List.Chain' (fun c1 c2 => c2.startHeight = c1.startHeight + c1.numPubRand) l := by
  intro l
  induction l with
  | nil => intro st _; exact List.chain'_nil
  | cons c rest ih =>
    intro st hch
    have hnext : chainedExt (some c) rest := by
      cases st with
      | none => exact hch
      | some c0 => exact hch.2
    rw [List.chain'_cons']
    refine ⟨?_, ih (some c) hnext⟩
    intro b hb
    cases rest with
    | nil => simp at hb
    | cons c1 tail =>
      simp only [List.head?_cons, Option.mem_def, Option.some.injEq] at hb
      subst hb
      exact hnext.1

/-- C3: across any run of the commit pipeline, the submitted commits are
contiguous — each one starts exactly at the previous commit's
`start_height + num_pub_rand`. -/
theorem commitTrace_contiguous (cfg : CommitCfg) (p : EotsParams)
    (master chainId : Nat) (lastCommit : Option PubRandCommit)
    (tips : List Nat) :
    List.Chain' (fun c1 c2 => c2.startHeight = c1.startHeight + c1.numPubRand)
      (commitTrace cfg p master chainId lastCommit tips).2 :=
  chainedExt_chain' _ lastCommit
    (commitTrace_chainedExt cfg p master chainId tips lastCommit)

/-- The seed scenario's configuration: `N = 1000`, `T = 200`,
`min_randomness_before_exhaustion = 100`, activation height 1. -/
def seedCfg : CommitCfg := ⟨1000, 200, 100, 1⟩

/-- The seed scenario's latest on-chain commit `{start = 200, N = 1000}`. -/
def seedCommit : PubRandCommit := ⟨200, 1000, .lf 0⟩

/-- Counterexample to C6 as stated: at tip 900 the pipeline does commit —
`900 + 200 + 100 = 1200` is not strictly below `last_end = 1200`, so the
no-op condition fails and a batch starting at 1200 is submitted. -/
theorem commitPubRand_tip900_commits :
    (commitPubRandStep seedCfg sampleParams 11 2 (some seedCommit) 900).2 ≠
      none := by
  rw [commitPubRandStep, shouldCommitPubRand]
  rw [if_neg (by decide)]
  simp

/-- C6 (amended): the pipeline is a no-op exactly when
`tip + T + min_randomness_before_exhaustion < last_end`; in the seed
scenario both tip 900 and tip 950 trigger a new commit with start 1200 and
`N = 1000`. -/
theorem commitPubRand_runway :
    (∀ (cfg : CommitCfg) (p : EotsParams) (master chainId : Nat)
        (lastCommit : Option PubRandCommit) (tip : Nat),
      (commitPubRandStep cfg p master chainId lastCommit tip).2 = none ↔
        tip + cfg.timestampingDelay + cfg.minRandomnessBeforeExhaustion <
          lastCommitEnd cfg lastCommit) ∧
    (∀ (p : EotsParams) (master chainId : Nat), ∃ root,
      (commitPubRandStep seedCfg p master chainId (some seedCommit) 900).2 =
        some ⟨1200, 1000, root⟩) ∧
    (∀ (p : EotsParams) (master chainId : Nat), ∃ root,
      (commitPubRandStep seedCfg p master chainId (some seedCommit) 950).2 =
        some ⟨1200, 1000, root⟩) := by
  refine ⟨?_, ?_, ?_⟩
  · intro cfg p master chainId lastCommit tip
    rw [commitPubRandStep, shouldCommitPubRand]
    by_cases hrun :
        tip + cfg.timestampingDelay + cfg.minRandomnessBeforeExhaustion <
          lastCommitEnd cfg lastCommit
    · rw [if_pos hrun]
      simp [hrun]
    · rw [if_neg hrun]
      simp [hrun]
  · intro p master chainId
    rw [commitPubRandStep, shouldCommitPubRand]
    rw [if_neg (by decide)]
    exact ⟨_, rfl⟩
  · intro p master chainId
    rw [commitPubRandStep, shouldCommitPubRand]
    rw [if_neg (by decide)]
    exact ⟨_, rfl⟩

/-- The chain as the commit pipeline sees it: the provider's latest
public-randomness commit, the voting-power table, and the transaction hash
the chain answers a successful submission with. -/
structure ChainEnv where
  lastCommit : Option PubRandCommit
  hasPower : Nat → Bool
  txHash : Nat

/-- A chain submission acknowledgement. -/
structure TxResponse where
  txHash : Nat
deriving DecidableEq

/-- Modelled from the spec: `CommitPubRand` as driven by the fuzz test —
run the pipeline against the chain view and return the submission's
transaction hash when a batch was committed.  No step consults the
provider's voting power. -/
def commitPubRand (cfg : CommitCfg) (p : EotsParams) (master chainId : Nat)
    (env : ChainEnv) (tip : Nat) : Option TxResponse :=
  match (commitPubRandStep cfg p master chainId env.lastCommit tip).2 with
  | none => none
  | some _ => some ⟨env.txHash⟩

/-- C10: committing public randomness needs no voting power — with no prior
commit on chain and the tip past the activation runway, `CommitPubRand`
returns the submission's transaction hash whatever the voting-power table
says. -/
theorem commitPubRand_no_power (cfg : CommitCfg) (p : EotsParams)
    (master chainId : Nat) (env : ChainEnv) (tip : Nat)
    (hnone : env.lastCommit = none)
    (hact : cfg.activationHeight ≤
      tip + cfg.timestampingDelay + cfg.minRandomnessBeforeExhaustion) :
    ∀ power : Nat → Bool,
      commitPubRand cfg p master chainId { env with hasPower := power } tip =
        some ⟨env.txHash⟩ := by
  intro power
  rw [commitPubRand, commitPubRandStep, shouldCommitPubRand]
  simp only [hnone, lastCommitEnd]
  rw [if_neg (by omega)]

/-- Witness for C10: a fresh provider with zero voting power everywhere
still gets its commit acknowledged. -/
theorem commitPubRand_no_power_witness :
    commitPubRand seedCfg sampleParams 11 2 ⟨none, fun _ => false, 42⟩ 5 =
      some ⟨42⟩ :=
  commitPubRand_no_power seedCfg sampleParams 11 2 ⟨none, fun _ => true, 42⟩ 5
    rfl (by decide) (fun _ => false)

/-! ## Proof store (component C) and the commit/proof round trip

Modelled from the spec: the pub-rand proof store
(`GetPubRandProofStore` / `AddPubRandProofList`) is not among the
repository's files.  After a successful submission the pipeline stores the
`N` inclusion proofs keyed by height. -/

/-- Look a height up in a stored proof table (first binding wins). -/
def lookupProof : List (Nat × List (Bool × MTHash)) → Nat →
    Option (List (Bool × MTHash))
  | [], _ => none
  | (hgt, pf) :: rest, key => if hgt = key then some pf else lookupProof rest key

/-- The proof table the commit pipeline writes after submitting a batch:
for each height of `[start, start + N)` the inclusion proof of its leaf. -/
def storedProofs (publics : List Nat) (start : Nat) :
    List (Nat × List (Bool × MTHash)) :=
  (List.range' start publics.length).map fun h =>
    (h, proofAt (publics.map leafHash) (h - start))

theorem lookupProof_range' :
    ∀ (n s key : Nat) (g : Nat → List (Bool × MTHash)),
      s ≤ key → key < s + n →
      lookupProof ((List.range' s n).map fun h => (h, g h)) key = some (g key) := by
  intro n
  induction n with
  | zero => intro s key g h1 h2; omega
  | succ m ih =>
    intro s key g h1 h2
    rw [List.range'_succ, List.map_cons, lookupProof]
    by_cases hk : s = key
    · rw [if_pos hk, hk]
    · rw [if_neg hk]
      exact ih (s + 1) key g (by omega) (by omega)

theorem getD_map_leafHash : ∀ (pubs : List Nat) (i : Nat), i < pubs.length →
    (pubs.map leafHash).getD i (.lf 0) = leafHash (pubs.getD i 0) := by
  intro pubs
  induction pubs with
  | nil => intro i h; simp at h
  | cons p rest ih =>
    intro i h
    cases i with
    | zero => simp
    | succ j =>
      simp only [List.map_cons, List.getD_cons_succ]
      exact ih j (by simpa using h)

/-- C7: the commit/proof round trip — for every height of the committed
range, the proof the pipeline stored for that height, combined with the
leaf hash of its public nonce, verifies against the committed Merkle
root. -/
theorem pubRandCommit_roundTrip (publics : List Nat) (start h : Nat)
    (h1 : start ≤ h) (h2 : h < start + publics.length) :
    ∃ pf, lookupProof (storedProofs publics start) h = some pf ∧
      verifyPath (leafHash (publics.getD (h - start) 0)) pf =
        commitRoot publics := by
  refine ⟨proofAt (publics.map leafHash) (h - start), ?_, ?_⟩
  · rw [storedProofs]
    exact lookupProof_range' publics.length start h _ h1 h2
  · have hlt : h - start < (publics.map leafHash).length := by
      rw [List.length_map]
      omega
    rw [← getD_map_leafHash publics (h - start) (by omega)]
    exact verifyPath_proofAt (publics.map leafHash) (h - start) hlt

/-- Witness for C7: a five-nonce batch committed at height 100; the stored
proof for height 102 verifies against the root. -/
theorem pubRandCommit_roundTrip_witness :
    ∃ pf, lookupProof (storedProofs [10, 20, 30, 40, 50] 100) 102 = some pf ∧
      verifyPath (leafHash ([10, 20, 30, 40, 50].getD (102 - 100) 0)) pf =
        commitRoot [10, 20, 30, 40, 50] :=
  pubRandCommit_roundTrip [10, 20, 30, 40, 50] 100 102 (by decide) (by decide)

/-! ## Finality-provider store (component D)

Modelled from the spec: the finality-provider store
(`MustUpdateStateAfterFinalitySigSubmission`, `GetLastVotedHeight`) is not
among the repository's files.  `update_last_voted_height(h)` accepts only
`h > current`; the stored value survives a crash-restart. -/

/-- The guarded update: accepted exactly when the new height exceeds the
current stored one. -/
def updateLastVotedHeight (cur h : Nat) : Option Nat :=
  if cur < h then some h else none

/-- The stored value after an update attempt: the accepted height, or the
old value when the update is refused. -/
def applyLastVotedUpdate (cur h : Nat) : Nat :=
  match updateLastVotedHeight cur h with
  | some v => v
  | none => cur

/-- The operations observable on the store's `last_voted_height`. -/
inductive FpStoreOp where
  | updateLastVoted (h : Nat)
  | crashRestart
deriving DecidableEq

/-- Apply one operation: updates are guarded, and a crash-restart reloads
the persisted value unchanged. -/
def applyFpOp (cur : Nat) : FpStoreOp → Nat
  | .updateLastVoted h => applyLastVotedUpdate cur h
  | .crashRestart => cur

/-- Run a sequence of store operations. -/
def runFpOps : Nat → List FpStoreOp → Nat
  | cur, [] => cur
  | cur, op :: rest => runFpOps (applyFpOp cur op) rest

theorem applyFpOp_le (cur : Nat) (op : FpStoreOp) : cur ≤ applyFpOp cur op := by
  cases op with
  | updateLastVoted h =>
    rw [applyFpOp, applyLastVotedUpdate, updateLastVotedHeight]
    by_cases hlt : cur < h
    · rw [if_pos hlt]
      exact Nat.le_of_lt hlt
    · rw [if_neg hlt]
  | crashRestart => exact Nat.le_refl cur

/-- C9: the store's update accepts exactly the strictly larger heights, so
`last_voted_height` is monotonically non-decreasing across every sequence
of operations, crash-restarts included. -/
theorem lastVotedHeight_monotone :
    (∀ cur h : Nat, (updateLastVotedHeight cur h).isSome ↔ cur < h) ∧
    (∀ (cur : Nat) (ops : List FpStoreOp), cur ≤ runFpOps cur ops) := by
  constructor
  · intro cur h
    rw [updateLastVotedHeight]
    by_cases hlt : cur < h
    · simp [hlt]
    · simp [hlt]
  · intro cur ops
    induction ops generalizing cur with
    | nil => exact Nat.le_refl cur
    | cons op rest ih =>
      rw [runFpOps]
      exact Nat.le_trans (applyFpOp_le cur op) (ih (applyFpOp cur op))

/-! ## Vote pipeline (component F)

Modelled from the spec: `SubmitBatchFinalitySignatures` and its
preconditions are not among the repository's files; only the fuzz test
`FuzzSubmitFinalitySigs` is.  A block is signable only inside the committed
randomness window, and the local `last_voted_height` is updated only when
the batch submission succeeds. -/

/-- The refusals of the vote pipeline's randomness-window check. -/
inductive VoteRefusal where
  | randomnessNotCommitted
  | randomnessExhausted
deriving DecidableEq

/-- The window precondition: a block is signable only when its height lies
in `[commit.start, commit.start + commit.num_pub_rand)`; below the window
the randomness is not yet committed, at or above its end it is
exhausted. -/
def checkRandomnessWindow (commit : PubRandCommit) (b : BlockInfo) :
    Except VoteRefusal Unit :=
  if b.height < commit.startHeight then .error .randomnessNotCommitted
  else if b.height < commit.startHeight + commit.numPubRand then .ok ()
  else .error .randomnessExhausted

/-- C4: the vote pipeline signs exactly the blocks inside the committed
window — a block at `commit.start + N` (or anywhere outside the window) is
refused with a randomness-exhausted or not-yet-committed error. -/
theorem checkRandomnessWindow_spec :
    ∀ (commit : PubRandCommit) (b : BlockInfo),
      (checkRandomnessWindow commit b = .ok () ↔
        commit.startHeight ≤ b.height ∧
          b.height < commit.startHeight + commit.numPubRand) ∧
      (b.height = commit.startHeight + commit.numPubRand →
        checkRandomnessWindow commit b = .error .randomnessExhausted) ∧
      (b.height < commit.startHeight →
        checkRandomnessWindow commit b = .error .randomnessNotCommitted) ∧
      (commit.startHeight + commit.numPubRand ≤ b.height →
        checkRandomnessWindow commit b = .error .randomnessExhausted) := by
  intro commit b
  rw [checkRandomnessWindow]
  refine ⟨?_, ?_, ?_, ?_⟩
  · by_cases hlo : b.height < commit.startHeight
    · rw [if_pos hlo]
      constructor
      · intro hx; exact Except.noConfusion hx
      · intro hx; omega
    · rw [if_neg hlo]
      by_cases hhi : b.height < commit.startHeight + commit.numPubRand
      · rw [if_pos hhi]
        simp only [true_iff]
        omega
      · rw [if_neg hhi]
        constructor
        · intro hx; exact Except.noConfusion hx
        · intro hx; omega
  · intro hx
    rw [if_neg (by omega), if_neg (by omega)]
  · intro hx
    rw [if_pos hx]
  · intro hx
    rw [if_neg (by omega), if_neg (by omega)]

/-- The maximum height of a submitted batch. -/
def maxBlockHeight (blocks : List BlockInfo) : Nat :=
  blocks.foldl (fun acc b => Nat.max acc b.height) 0

/-- Modelled from the spec: the vote pipeline's post-submission state
update — on success the store's guarded update is attempted with the
batch's maximum height; on failure the local state is untouched and the
batch is retried later. -/
def submitBatchFinalitySigs (cur : Nat) (blocks : List BlockInfo)
    (submitOk : Bool) : Nat :=
  if submitOk then applyLastVotedUpdate cur (maxBlockHeight blocks) else cur

/-- C5: a successful batch submission moves `last_voted_height` to the
maximum of its previous value and the highest submitted height; a failed
one leaves it unchanged. -/
theorem submitBatch_lastVoted :
    ∀ (cur : Nat) (blocks : List BlockInfo),
      submitBatchFinalitySigs cur blocks true =
        Nat.max cur (maxBlockHeight blocks) ∧
      submitBatchFinalitySigs cur blocks false = cur := by
  intro cur blocks
  constructor
  · rw [submitBatchFinalitySigs, if_pos rfl, applyLastVotedUpdate,
      updateLastVotedHeight]
    by_cases hlt : cur < maxBlockHeight blocks
    · rw [if_pos hlt]
      exact (Nat.max_eq_right (Nat.le_of_lt hlt)).symm
    · rw [if_neg hlt]
      have hle : maxBlockHeight blocks ≤ cur := by omega
      exact (Nat.max_eq_left hle).symm
  · rw [submitBatchFinalitySigs, if_neg Bool.false_ne_true]

end FinalityProvider
